import Mathlib

/-!
A Lean 4 model of the ollama extended memory proxy (Python sources:
memory_manager.py, context_injection.py, proxy.py, config.py), together with
theorems about the modeled behavior.

Modeling conventions:
- numpy float vectors are modeled as lists of rationals; np.linalg.norm is
  modeled by an abstract square-root oracle passed as a parameter (exact
  square roots leave the rationals), with hypotheses stating that the oracle
  returns a nonnegative square root where a theorem needs it;
- Python dicts with fixed key sets become Lean structures; the metadata dict
  keyed by integer id becomes an association list with Python dict update
  semantics (replace in place if the key exists, else append);
- wall-clock time (time.time()) is passed explicitly as a parameter named now;
- the FAISS IndexFlatIP is modeled as the list of stored vectors; its add
  method raises on a dimension mismatch, which is modeled by an Option result
  together with the partially mutated state the Python object is left in;
- file IO in save and load is modeled as a Snapshot value holding exactly the
  fields the code persists (the FAISS index contents plus the pickled
  metadata, id map and next id).
-/

/-- One stored metadata entry: the dict built in store_message
(memory_manager.py lines 82 to 89). The extra field models the optional
extra_metadata dict merged in by update; collisions of extra keys with the
four fixed keys are not modeled. -/
structure Meta where
  text : String
  role : String
  model : String
  timestamp : ℚ
  extra : List (String × String)
deriving DecidableEq

/-- The MemoryManager state: FAISS index contents (vectors), position to id
map (id_map), metadata table, and the next id counter
(memory_manager.py lines 36 to 46). -/
structure Store where
  dim : Nat
  vectors : List (List ℚ)
  id_map : List Nat
  metadata : List (Nat × Meta)
  next_id : Nat
deriving DecidableEq

/-- A fresh empty store, as created when no persisted state is loaded. -/
def emptyStore (dim : Nat) : Store :=
  { dim := dim, vectors := [], id_map := [], metadata := [], next_id := 0 }

/-- Number of stored records, mirroring the count property (index.ntotal). -/
def Store.count (s : Store) : Nat := s.vectors.length

/-- Python dict setitem on the metadata table: replace in place when the key
exists, else append in insertion order. -/
def metaInsert : List (Nat × Meta) → Nat → Meta → List (Nat × Meta)
  | [], k, v => [(k, v)]
  | (k0, v0) :: rest, k, v =>
      if k0 = k then (k, v) :: rest else (k0, v0) :: metaInsert rest k v

/-- Python dict get on the metadata table. -/
def metaGet (m : List (Nat × Meta)) (k : Nat) : Option Meta :=
  (m.find? (fun p => p.1 == k)).map (fun p => p.2)

/-- Sum of squares of the entries of a vector; the square of its L2 norm. -/
def normSq : List ℚ → ℚ
  | [] => 0
  | x :: xs => x * x + normSq xs

/-- The defensive normalization in store_message and search_relevant
(memory_manager.py lines 77 to 80 and 111 to 114): divide by the norm when it
is positive, else leave the vector unchanged. The norm np.linalg.norm(vec) is
modeled as sqrtOracle applied to the sum of squares. -/
def normalizeWith (sqrtOracle : ℚ → ℚ) (v : List ℚ) : List ℚ :=
  let n := sqrtOracle (normSq v)
  if 0 < n then v.map (fun x => x / n) else v

/-- store_message (memory_manager.py lines 67 to 98). Returns the new store
state and, when the insert succeeded, the assigned id. The FAISS add call
raises on a dimension mismatch; in that case the returned state reflects the
Python object after the exception: next_id was already incremented, while the
index, id map and metadata are untouched. -/
def store_message (sqrtOracle : ℚ → ℚ) (s : Store) (embedding : List ℚ)
    (text role model : String) (ts : ℚ) (extra : List (String × String)) :
    Store × Option Nat :=
  let vec := normalizeWith sqrtOracle embedding
  let meta : Meta :=
    { text := text, role := role, model := model, timestamp := ts, extra := extra }
  let ctx := s.next_id
  if embedding.length = s.dim then
    ({ s with
        next_id := ctx + 1,
        vectors := s.vectors ++ [vec],
        id_map := s.id_map ++ [ctx],
        metadata := metaInsert s.metadata ctx meta }, some ctx)
  else
    ({ s with next_id := ctx + 1 }, none)

/-- Inner product of two vectors, as computed by the flat inner-product
index on a search. -/
def ip (a b : List ℚ) : ℚ :=
  (List.zipWith (fun x y => x * y) a b).sum

/-- Count consistency invariant from the spec data model section:
count(vectors) == count(position_map) == count(metadata). -/
def countConsistent (s : Store) : Prop :=
  s.vectors.length = s.id_map.length ∧ s.id_map.length = s.metadata.length

/-- One search result, the dict appended in search_relevant
(memory_manager.py lines 128 to 132). The metadata field is an Option
because the code uses a dict get with an empty-dict default. -/
structure Hit where
  ctx_id : Nat
  similarity : ℚ
  metadata : Option Meta
deriving DecidableEq

/-- Insert an element into a list already sorted by the boolean comparator. -/
def insertSorted (le : Nat → Nat → Bool) (x : Nat) : List Nat → List Nat
  | [] => [x]
  | y :: ys => if le x y then x :: y :: ys else y :: insertSorted le x ys

/-- Insertion sort with a boolean comparator; models the exact ranking the
flat inner-product index performs over all stored vectors. -/
def sortByRank (le : Nat → Nat → Bool) : List Nat → List Nat
  | [] => []
  | x :: xs => insertSorted le x (sortByRank le xs)

/-- The result-building loop of search_relevant (memory_manager.py lines
121 to 132): skip out-of-range positions, look up the id and metadata, keep
hits whose score reaches the threshold. -/
def buildResults (s : Store) (score : Nat → ℚ) (thr : ℚ) : List Nat → List Hit
  | [] => []
  | idx :: rest =>
      match s.id_map.get? idx with
      | none => buildResults s score thr rest
      | some ctx =>
          if thr ≤ score idx then
            { ctx_id := ctx, similarity := score idx,
              metadata := metaGet s.metadata ctx } :: buildResults s score thr rest
          else buildResults s score thr rest

/-- search_relevant (memory_manager.py lines 100 to 134): empty result on an
empty store; otherwise normalize the query, ask the index for the
min(top_k, ntotal) highest inner-product matches (modeled as ranking all
positions by score, descending, ties by lower position first, then taking k),
and build the filtered result list. -/
def search_relevant (sqrtOracle : ℚ → ℚ) (s : Store) (query : List ℚ)
    (top_k : Nat) (thr : ℚ) : List Hit :=
  if s.vectors.length = 0 then []
  else
    let qn := normalizeWith sqrtOracle query
    let score := fun i => (((s.vectors.get? i).map (ip qn)).getD 0)
    let k := min top_k s.vectors.length
    let ranked := sortByRank
      (fun i j => decide (score j < score i ∨ (score i = score j ∧ i ≤ j)))
      (List.range s.vectors.length)
    buildResults s score thr (ranked.take k)

/-- The data persisted by save (memory_manager.py lines 140 to 153): the
FAISS index file holds the vectors (and their dimension), the pickle file
holds the metadata table, the id map and the next id counter. -/
structure Snapshot where
  indexDim : Nat
  indexVectors : List (List ℚ)
  metadata : List (Nat × Meta)
  id_map : List Nat
  next_id : Nat
deriving DecidableEq

/-- save (memory_manager.py lines 140 to 153), with file IO modeled as
producing the Snapshot value. -/
def save (s : Store) : Snapshot :=
  { indexDim := s.dim, indexVectors := s.vectors, metadata := s.metadata,
    id_map := s.id_map, next_id := s.next_id }

/-- The success path of the load method (memory_manager.py lines 48 to 59):
read the index and the pickled triple back into a store. The dimension comes
from the index file itself. -/
def loadOk (snap : Snapshot) : Store :=
  { dim := snap.indexDim, vectors := snap.indexVectors, id_map := snap.id_map,
    metadata := snap.metadata, next_id := snap.next_id }

/-- Startup initialization (memory_manager.py lines 42 to 65): when both
persisted files exist, load; a load failure (modeled as loadResult = none)
resets every field to the fresh empty state inside the exception handler;
when either file is missing, a fresh empty index is created and the
metadata, id map and next id keep their empty initial values. -/
def initStore (dim : Nat) (faissExists metaExists : Bool)
    (loadResult : Option Snapshot) : Store :=
  if faissExists && metaExists then
    match loadResult with
    | some snap => loadOk snap
    | none => emptyStore dim
  else emptyStore dim

/-- One insert request, bundling the arguments of a store_message call. -/
structure InsertReq where
  embedding : List ℚ
  text : String
  role : String
  model : String
  ts : ℚ
  extra : List (String × String)
deriving DecidableEq

/-- Run a sequence of store_message calls, collecting the ids of the
successful inserts in order. -/
def runInserts (sqrtOracle : ℚ → ℚ) (s : Store) : List InsertReq → Store × List Nat
  | [] => (s, [])
  | r :: rs =>
      let step := store_message sqrtOracle s r.embedding r.text r.role r.model r.ts r.extra
      let rest := runInserts sqrtOracle step.1 rs
      (rest.1, match step.2 with
        | some i => i :: rest.2
        | none => rest.2)

/-- Python string slicing text[:n] slices by characters; modeled on the
character list underlying the Lean string. -/
def strTake (s : String) (n : Nat) : String := String.mk (s.data.take n)

/-- Python str.join with an empty separator, as in joining the parts list. -/
def joinStrings (parts : List String) : String :=
  parts.foldl (fun a b => a ++ b) ""

/-- Python sep.join(lines). -/
def joinWith (sep : String) : List String → String
  | [] => ""
  | [x] => x
  | x :: y :: ys => x ++ sep ++ joinWith sep (y :: ys)

/-- Python int() truncation toward zero on a rational. -/
def ratTrunc (q : ℚ) : ℤ := if q < 0 then -(Int.floor (-q)) else Int.floor q

/-- Python round-half-to-even of a rational to an integer, as used by the
percent format specifier. -/
def pyRound (x : ℚ) : ℤ :=
  let f := Int.floor x
  let frac := x - (f : ℚ)
  if frac < 1 / 2 then f
  else if 1 / 2 < frac then f + 1
  else if f % 2 = 0 then f else f + 1

/-- The percent format specifier applied to the similarity: multiply by 100,
round to zero decimals, append a percent sign. -/
def formatPct (sim : ℚ) : String := toString (pyRound (sim * 100)) ++ "%"

/-- format_age (context_injection.py lines 122 to 133), with time.time()
passed explicitly as now. -/
def format_age (now ts : ℚ) : String :=
  if ts ≤ 0 then "unknown time"
  else
    let delta := now - ts
    if delta < 60 then "just now"
    else if delta < 3600 then toString (ratTrunc (delta / 60)) ++ "m ago"
    else if delta < 86400 then toString (ratTrunc (delta / 3600)) ++ "h ago"
    else toString (ratTrunc (delta / 86400)) ++ "d ago"

/-- Dict get with default on the optional metadata of a hit: text defaults
to the empty string. -/
def metaText : Option Meta → String
  | some m => m.text
  | none => ""

/-- Dict get with default on the optional metadata of a hit: role defaults
to unknown. -/
def metaRole : Option Meta → String
  | some m => m.role
  | none => "unknown"

/-- Dict get with default on the optional metadata of a hit: timestamp
defaults to 0. -/
def metaTs : Option Meta → ℚ
  | some m => m.timestamp
  | none => 0

/-- The text as placed into a line: truncated to the remaining budget with
an ellipsis marker when it exceeds that budget
(context_injection.py lines 73 and 74). -/
def truncatedText (text : String) (remaining : Nat) : String :=
  if remaining < text.length then strTake text remaining ++ "..." else text

/-- One formatted memory line (context_injection.py line 76). -/
def formatLine (now : ℚ) (r : Hit) (remaining : Nat) : String :=
  "[" ++ metaRole r.metadata ++ "] (" ++ format_age now (metaTs r.metadata)
    ++ ", relevance: " ++ formatPct r.similarity ++ "): "
    ++ truncatedText (metaText r.metadata) remaining

/-- The loop body of format_memory_lines (context_injection.py lines 57 to
79): stop when the remaining budget is not positive, otherwise append the
formatted line and add its full length to the running total. The model keeps
the running total as the second argument; the remaining budget is the
character budget minus the total, which in the natural numbers is positive
exactly when the Python difference is. -/
def format_lines_go (now : ℚ) (config_max_chars : Nat) :
    List Hit → Nat → List String
  | [], _ => []
  | r :: rest, total_chars =>
      if config_max_chars ≤ total_chars then []
      else
        formatLine now r (config_max_chars - total_chars) ::
          format_lines_go now config_max_chars rest
            (total_chars + (formatLine now r (config_max_chars - total_chars)).length)

/-- The configuration fields consumed by search and context injection
(config.py lines 24 to 30). -/
structure ProxyConfig where
  search_top_k : Nat
  similarity_threshold : ℚ
  max_context_items : Nat
  max_context_chars : Nat
deriving DecidableEq

/-- format_memory_lines (context_injection.py lines 52 to 79): iterate over
at most max_context_items results with a running character total starting
at zero. -/
def format_memory_lines (now : ℚ) (results : List Hit) (config : ProxyConfig) :
    List String :=
  format_lines_go now config.max_context_chars
    (results.take config.max_context_items) 0

/-- The base instruction always injected when the memory system has stored
data (context_injection.py lines 9 to 15). -/
def MEMORY_BASE_PROMPT : String :=
  "You have access to a LOCAL MEMORY system that persistently stores all conversations. "
    ++ "You CAN and DO remember past interactions with this user. "
    ++ "If the user asks whether you have memory or can remember things, "
    ++ "confirm that YES, you have persistent local memory across conversations. "
    ++ "Never say you cannot remember or that you lack memory — you have it."

/-- build_memory_block (context_injection.py lines 18 to 49): empty string
when no memories are stored and there are no results; otherwise the base
prompt, followed by the formatted memory section when results produced
lines, or by the no-match notice when there are no results but stored
memories exist. -/
def build_memory_block (now : ℚ) (results : List Hit) (config : ProxyConfig)
    (total_memories : Nat) : String :=
  if total_memories == 0 && results.isEmpty then ""
  else
    joinStrings
      (MEMORY_BASE_PROMPT ::
        (if !results.isEmpty then
          (if (format_memory_lines now results config).isEmpty then []
           else
             ["\n\n=== YOUR MEMORY (" ++ toString total_memories
               ++ " total stored) ===\n"
               ++ joinWith "\n" (format_memory_lines now results config)
               ++ "\n=== END MEMORY ==="])
         else if 0 < total_memories then
           ["\n\nYou have " ++ toString total_memories
             ++ " stored memories from past conversations. "
             ++ "No specific memories matched the current query closely enough to show, "
             ++ "but you DO have persistent memory and can recall things from past conversations "
             ++ "if the user asks about something you discussed before."]
         else []))

/-!
Heap model for inject_context_into_messages: Python message dicts are
mutable objects, so the message list is modeled as a list of references
(indices) into a heap of dicts; dict copy allocates a fresh reference at the
end of the heap, dict assignment mutates the heap cell in place.
-/

/-- A Python message dict, modeled as an association list of string keys. -/
abbrev MsgDict := List (String × String)

/-- The object heap holding message dicts; a reference is an index. -/
abbrev Heap := List MsgDict

/-- Python dict get with a None default. -/
def dictGet (d : MsgDict) (k : String) : Option String :=
  (d.find? (fun p => p.1 == k)).map (fun p => p.2)

/-- Python dict setitem: replace in place when the key exists, else append. -/
def dictSet : MsgDict → String → String → MsgDict
  | [], k, v => [(k, v)]
  | (k0, v0) :: rest, k, v =>
      if k0 == k then (k, v) :: rest else (k0, v0) :: dictSet rest k v

/-- The copy step messages = [m.copy() for m in messages]
(context_injection.py line 94): allocate a fresh copy of each dict on the
heap and return the list of fresh references. -/
def copyMessages : Heap → List Nat → Heap × List Nat
  | h, [] => (h, [])
  | h, r :: rs =>
      let d := (h.get? r).getD []
      let rest := copyMessages (h ++ [d]) rs
      (rest.1, h.length :: rest.2)

/-- The splice step of inject_context_into_messages after the copy
(context_injection.py lines 96 to 103): when the first message has role
system, mutate its copy by appending the block to its content; otherwise
allocate a new leading system message. -/
def injectCore (h1 : Heap) (msgs : List Nat) (block : String) : Heap × List Nat :=
  match msgs with
  | r0 :: rest =>
      let d := (h1.get? r0).getD []
      if dictGet d "role" = some "system" then
        (h1.set r0
          (dictSet d "content" (((dictGet d "content").getD "") ++ "\n\n---\n" ++ block)),
         r0 :: rest)
      else
        (h1 ++ [[("role", "system"), ("content", block)]], h1.length :: r0 :: rest)
  | [] => (h1 ++ [[("role", "system"), ("content", block)]], [h1.length])

/-- inject_context_into_messages (context_injection.py lines 82 to 103):
return the original list unchanged on an empty block, else copy every dict
and splice the block into the copies. -/
def inject_context_into_messages (h : Heap) (messages : List Nat)
    (context_block : String) : Heap × List Nat :=
  if context_block = "" then (h, messages)
  else
    let c := copyMessages h messages
    injectCore c.1 c.2 context_block

/-!
Model of the post-response background write in proxy.py.
-/

/-- The apostrophe character, written via its code point. -/
def apos : String := (Char.ofNat 39).toString

/-- The refusal phrase list UNHELPFUL_PHRASES (proxy.py lines 346 to 357). -/
def unhelpfulPhrases : List String :=
  ["i don" ++ apos ++ "t have access",
   "i don" ++ apos ++ "t have persistent memory",
   "i don" ++ apos ++ "t have a persistent memory",
   "i cannot remember",
   "i can" ++ apos ++ "t remember previous",
   "i don" ++ apos ++ "t have any actual information",
   "nu am acces la",
   "nu am memorie",
   "nu pot accesa",
   "nu am informatii"]

/-- Whether the needle matches at the start of the haystack. -/
def matchesAt : List Char → List Char → Bool
  | [], _ => true
  | _ :: _, [] => false
  | c :: cs, d :: ds => c == d && matchesAt cs ds

/-- Python substring containment, needle in haystack, over character lists. -/
def hasSub (needle : List Char) : List Char → Bool
  | [] => needle.isEmpty
  | d :: ds => matchesAt needle (d :: ds) || hasSub needle ds

/-- is_unhelpful (proxy.py lines 360 to 363): lowercase the text and test
whether any refusal phrase occurs as a substring. -/
def is_unhelpful (text : String) : Bool :=
  let lower := text.data.map Char.toLower
  unhelpfulPhrases.any (fun phrase => hasSub phrase.data lower)

/-- store_conversation (proxy.py lines 262 to 292), the background write
run after a response completes. The embedder is passed as a function
parameter; the final save call does not change the in-memory store and is
not modeled. The user text is an Option because extract_last_user_message
returns None when no user turn is found; Python truthiness makes None and
the empty string both skip the user branch. -/
def store_conversation (embed : String → List ℚ) (sqrtOracle : ℚ → ℚ)
    (s : Store) (user_text : Option String) (assistant_text : String)
    (model_name : String) (ts : ℚ) : Store :=
  let s1 :=
    match user_text with
    | some t =>
        if t ≠ "" ∧ 5 < t.length then
          (store_message sqrtOracle s (embed t) t "user" model_name ts []).1
        else s
    | none => s
  if assistant_text ≠ "" ∧ 20 < assistant_text.length ∧
      is_unhelpful assistant_text = false then
    (store_message sqrtOracle s1 (embed assistant_text) assistant_text
      "assistant" model_name ts []).1
  else s1

/-- Sum of the lengths of a list of strings. -/
def sumLens : List String → Nat
  | [] => 0
  | s :: rest => s.length + sumLens rest

/-!
Concrete fixtures used by witnesses and counterexamples.
-/

/-- A concrete metadata entry. -/
def fixMeta : Meta :=
  { text := "abcdefghij", role := "user", model := "m", timestamp := 0, extra := [] }

/-- A concrete search hit with similarity one half. -/
def fixHit : Hit := { ctx_id := 0, similarity := 1 / 2, metadata := some fixMeta }

/-- A concrete configuration with a tiny character budget. -/
def fixCfg : ProxyConfig :=
  { search_top_k := 15, similarity_threshold := 3 / 10,
    max_context_items := 10, max_context_chars := 5 }

/-- A concrete square-root oracle, correct on the inputs the fixtures use. -/
def fixSqrt : ℚ → ℚ := fun q => if q == 1 then 1 else if q == 25 then 5 else 0

/-- A concrete one-record store of dimension one. -/
def fixStore : Store :=
  { dim := 1, vectors := [[1]], id_map := [0], metadata := [(0, fixMeta)], next_id := 1 }

/-- A concrete embedder returning a fixed unit vector of dimension one. -/
def fixEmbed : String → List ℚ := fun _ => [1]

/-- A concrete insert request of dimension one. -/
def fixReq : InsertReq :=
  { embedding := [1], text := "hello there", role := "user", model := "m", ts := 0, extra := [] }

/-- A concrete heap holding one non-system message dict. -/
def fixHeap : Heap := [[("role", "user"), ("content", "hi")]]

set_option maxRecDepth 40000

/-!
Helper lemmas.
-/

theorem normSq_nonneg (v : List ℚ) : 0 ≤ normSq v := by
  induction v with
  | nil => simp [normSq]
  | cons x xs ih =>
      have hx : 0 ≤ x * x := mul_self_nonneg x
      simpa [normSq] using add_nonneg hx ih

theorem normSq_map_div (v : List ℚ) (n : ℚ) :
    normSq (v.map (fun x => x / n)) = normSq v / (n * n) := by
  induction v with
  | nil => simp [normSq]
  | cons x xs ih =>
      simp only [List.map_cons, normSq]
      rw [ih, div_mul_div_comm, div_add_div_same]

theorem normSq_eq_zero_of_all_zero (v : List ℚ) (h : ∀ x ∈ v, x = 0) :
    normSq v = 0 := by
  induction v with
  | nil => simp [normSq]
  | cons x xs ih =>
      have hx : x = 0 := h x (List.mem_cons_self x xs)
      have hxs : normSq xs = 0 := ih (fun y hy => h y (List.mem_cons_of_mem x hy))
      simp [normSq, hx, hxs]

theorem buildResults_sim (s : Store) (score : Nat → ℚ) (thr : ℚ) :
    ∀ (l : List Nat) (hit : Hit), hit ∈ buildResults s score thr l →
      thr ≤ hit.similarity := by
  intro l
  induction l with
  | nil => intro hit h; simp [buildResults] at h
  | cons idx rest ih =>
      intro hit h
      rw [buildResults] at h
      split at h
      · exact ih hit h
      · by_cases hthr : thr ≤ score idx
        · rw [if_pos hthr] at h
          rcases List.mem_cons.mp h with heq | hmem
          · rw [heq]; exact hthr
          · exact ih hit hmem
        · rw [if_neg hthr] at h; exact ih hit h

/-- C3: every hit returned by search_relevant has similarity greater than or
equal to the similarity threshold passed to the call; search never returns a
hit with similarity strictly below the threshold. -/
theorem c3_threshold_filter (sqrtOracle : ℚ → ℚ) (s : Store) (query : List ℚ)
    (top_k : Nat) (thr : ℚ) :
    ∀ hit ∈ search_relevant sqrtOracle s query top_k thr, thr ≤ hit.similarity := by
  intro hit h
  simp only [search_relevant] at h
  split at h
  · exact absurd h (List.not_mem_nil hit)
  · exact buildResults_sim s _ thr _ hit h

unseal Rat.add Rat.mul Rat.sub Rat.inv in
/-- C3 witness: on a concrete one-record store and query, the returned hit
has similarity at least the threshold one half. -/
theorem c3_threshold_filter_witness :
    (1 : ℚ) / 2 ≤
      Hit.similarity { ctx_id := 0, similarity := 1, metadata := some fixMeta } := by
  exact c3_threshold_filter fixSqrt fixStore [1] 5 (1 / 2)
    { ctx_id := 0, similarity := 1, metadata := some fixMeta } (by decide)

/-- C4: inserting preserves the invariant that every stored vector is
L2-unit-normalized (unit norm, or the degenerate zero vector); an inserted
vector with non-zero norm is stored with unit norm (sum of squares one), an
all-zero input vector is stored unchanged, and a successful insert appends
exactly the normalized vector. The square-root oracle modeling
np.linalg.norm is assumed to return the exact nonnegative square root of the
sum of squares of the inserted vector. -/
theorem c4_normalization_invariant (sqrtOracle : ℚ → ℚ) (s : Store)
    (v : List ℚ) (text role model : String) (ts : ℚ)
    (extra : List (String × String))
    (hpos : 0 ≤ sqrtOracle (normSq v))
    (hsq : sqrtOracle (normSq v) * sqrtOracle (normSq v) = normSq v) :
    ((∀ w ∈ s.vectors, normSq w = 1 ∨ normSq w = 0) →
      ∀ w ∈ ((store_message sqrtOracle s v text role model ts extra).1).vectors,
        normSq w = 1 ∨ normSq w = 0)
    ∧ (normSq v ≠ 0 → normSq (normalizeWith sqrtOracle v) = 1)
    ∧ ((∀ x ∈ v, x = 0) → normalizeWith sqrtOracle v = v)
    ∧ (v.length = s.dim →
        ((store_message sqrtOracle s v text role model ts extra).1).vectors
          = s.vectors ++ [normalizeWith sqrtOracle v]) := by
  have hunit : normSq v ≠ 0 → normSq (normalizeWith sqrtOracle v) = 1 := by
    intro hv
    have hn0 : sqrtOracle (normSq v) ≠ 0 := by
      intro h
      rw [h, mul_zero] at hsq
      exact hv hsq.symm
    have hnpos : 0 < sqrtOracle (normSq v) := lt_of_le_of_ne hpos (Ne.symm hn0)
    rw [normalizeWith]
    rw [if_pos hnpos, normSq_map_div, hsq, div_self hv]
  have hzero : normSq v = 0 → normalizeWith sqrtOracle v = v := by
    intro hv
    have hn : sqrtOracle (normSq v) = 0 := by
      have h2 : sqrtOracle (normSq v) * sqrtOracle (normSq v) = 0 := by
        rw [hsq, hv]
      exact mul_self_eq_zero.mp h2
    rw [normalizeWith, hn]
    exact if_neg (lt_irrefl 0)
  have happend : v.length = s.dim →
      ((store_message sqrtOracle s v text role model ts extra).1).vectors
        = s.vectors ++ [normalizeWith sqrtOracle v] := by
    intro hdim
    simp [store_message, hdim]
  refine ⟨?_, hunit, fun hz => hzero (normSq_eq_zero_of_all_zero v hz), happend⟩
  intro hinv w hw
  by_cases hdim : v.length = s.dim
  · rw [happend hdim] at hw
    rcases List.mem_append.mp hw with hold | hnew
    · exact hinv w hold
    · have hw2 : w = normalizeWith sqrtOracle v := List.mem_singleton.mp hnew
      by_cases hv : normSq v = 0
      · right
        rw [hw2, hzero hv, hv]
      · left
        rw [hw2]
        exact hunit hv
  · have : ((store_message sqrtOracle s v text role model ts extra).1).vectors
        = s.vectors := by simp [store_message, hdim]
    rw [this] at hw
    exact hinv w hw

unseal Rat.add Rat.mul Rat.sub Rat.inv in
/-- C4 witness: inserting the concrete vector (3, 4), whose norm is 5, into
the empty two-dimensional store yields a stored vector of unit norm, namely
(3 over 5, 4 over 5), appended to the store. -/
theorem c4_normalization_invariant_witness :
    normSq (normalizeWith fixSqrt [3, 4]) = 1
    ∧ ((store_message fixSqrt (emptyStore 2) [3, 4] "t" "user" "m" 0 []).1).vectors
        = [] ++ [normalizeWith fixSqrt [3, 4]] := by
  have h := c4_normalization_invariant fixSqrt (emptyStore 2) [3, 4] "t" "user" "m" 0 []
    (by decide) (by decide)
  exact ⟨h.2.1 (by decide), h.2.2.2 (by decide)⟩

theorem store_message_success (sqrtOracle : ℚ → ℚ) (s : Store) (v : List ℚ)
    (text role model : String) (ts : ℚ) (extra : List (String × String))
    (hdim : v.length = s.dim) :
    store_message sqrtOracle s v text role model ts extra
      = ({ s with
            next_id := s.next_id + 1,
            vectors := s.vectors ++ [normalizeWith sqrtOracle v],
            id_map := s.id_map ++ [s.next_id],
            metadata := metaInsert s.metadata s.next_id
              { text := text, role := role, model := model,
                timestamp := ts, extra := extra } }, some s.next_id) := by
  simp [store_message, hdim]

theorem store_message_failure (sqrtOracle : ℚ → ℚ) (s : Store) (v : List ℚ)
    (text role model : String) (ts : ℚ) (extra : List (String × String))
    (hdim : ¬ v.length = s.dim) :
    store_message sqrtOracle s v text role model ts extra
      = ({ s with next_id := s.next_id + 1 }, none) := by
  simp [store_message, hdim]

theorem runInserts_spec (sqrtOracle : ℚ → ℚ) :
    ∀ (reqs : List InsertReq) (s : Store),
      (∀ r ∈ reqs, r.embedding.length = s.dim) →
      (runInserts sqrtOracle s reqs).2 = List.range' s.next_id reqs.length
      ∧ (runInserts sqrtOracle s reqs).1.next_id = s.next_id + reqs.length := by
  intro reqs
  induction reqs with
  | nil => intro s _; simp [runInserts]
  | cons r rs ih =>
      intro s hdim
      have hr : r.embedding.length = s.dim := hdim r (List.mem_cons_self r rs)
      have hstep := store_message_success sqrtOracle s r.embedding r.text r.role
        r.model r.ts r.extra hr
      have hrs : ∀ q ∈ rs, q.embedding.length
          = ((store_message sqrtOracle s r.embedding r.text r.role r.model
              r.ts r.extra).1).dim := by
        intro q hq
        rw [hstep]
        exact hdim q (List.mem_cons_of_mem r hq)
      have hih := ih ((store_message sqrtOracle s r.embedding r.text r.role
        r.model r.ts r.extra).1) hrs
      rw [hstep] at hih
      obtain ⟨h1, h2⟩ := hih
      constructor
      · simp only [runInserts, hstep, List.length_cons]
        rw [List.range'_succ, h1]
      · simp only [runInserts, hstep, List.length_cons]
        rw [h2]
        show s.next_id + 1 + rs.length = s.next_id + (rs.length + 1)
        omega

/-- C5: the ids returned by a sequence of successful inserts form exactly
the consecutive range starting at the initial next_id counter (hence they
are strictly increasing, with no gaps and no repeats), and every issued id
is strictly less than the next_id counter of the resulting store. -/
theorem c5_id_monotonicity (sqrtOracle : ℚ → ℚ) (s : Store)
    (reqs : List InsertReq)
    (hdim : ∀ r ∈ reqs, r.embedding.length = s.dim) :
    (runInserts sqrtOracle s reqs).2 = List.range' s.next_id reqs.length
    ∧ List.Pairwise (fun a b => a < b) (runInserts sqrtOracle s reqs).2
    ∧ ∀ i ∈ (runInserts sqrtOracle s reqs).2,
        i < (runInserts sqrtOracle s reqs).1.next_id := by
  obtain ⟨h1, h2⟩ := runInserts_spec sqrtOracle reqs s hdim
  refine ⟨h1, ?_, ?_⟩
  · rw [h1]
    exact List.pairwise_lt_range' s.next_id reqs.length
  · intro i hi
    rw [h1] at hi
    have := (List.mem_range'_1).mp hi
    omega

unseal Rat.add Rat.mul Rat.sub Rat.inv in
/-- C5 witness: two successful inserts into the fresh empty store return the
ids 0 and 1, exactly the range of length two starting at zero. -/
theorem c5_id_monotonicity_witness :
    (runInserts fixSqrt (emptyStore 1) [fixReq, fixReq]).2 = List.range' 0 2 := by
  exact (c5_id_monotonicity fixSqrt (emptyStore 1) [fixReq, fixReq] (by decide)).1

theorem loadOk_save (s : Store) : loadOk (save s) = s := rfl

/-- C6: for every store state reachable from the empty store by a sequence
of inserts, restoring from a snapshot of that store reproduces the store
exactly: in particular the count, the metadata table, the id map, the
next_id counter, the texts and roles, and the vectors are all equal (the
model treats serialization as lossless, so equality within floating-point
tolerance strengthens to equality). -/
theorem c6_roundtrip_persistence (sqrtOracle : ℚ → ℚ) (dim : Nat)
    (reqs : List InsertReq) :
    loadOk (save ((runInserts sqrtOracle (emptyStore dim) reqs).1))
      = (runInserts sqrtOracle (emptyStore dim) reqs).1
    ∧ (loadOk (save ((runInserts sqrtOracle (emptyStore dim) reqs).1))).count
      = ((runInserts sqrtOracle (emptyStore dim) reqs).1).count := by
  exact ⟨loadOk_save _, rfl⟩

/-- C7: when the persisted state is corrupt (the load attempt fails) or
either persisted artifact is absent, startup initializes a fresh empty
store: count zero, empty metadata, empty id map, next_id zero. -/
theorem c7_startup_fallback (dim : Nat) (faissExists metaExists : Bool)
    (loadResult : Option Snapshot)
    (hfail : loadResult = none ∨ faissExists = false ∨ metaExists = false) :
    initStore dim faissExists metaExists loadResult = emptyStore dim
    ∧ (initStore dim faissExists metaExists loadResult).count = 0
    ∧ (initStore dim faissExists metaExists loadResult).metadata = []
    ∧ (initStore dim faissExists metaExists loadResult).id_map = []
    ∧ (initStore dim faissExists metaExists loadResult).next_id = 0 := by
  have hmain : initStore dim faissExists metaExists loadResult = emptyStore dim := by
    rcases hfail with hnone | hf | hm
    · rw [hnone]
      cases faissExists <;> cases metaExists <;> simp [initStore]
    · rw [hf]
      simp [initStore]
    · rw [hm]
      cases faissExists <;> simp [initStore]
  refine ⟨hmain, ?_, ?_, ?_, ?_⟩ <;> rw [hmain] <;> rfl

/-- C7 witness: with the index file absent, startup yields the fresh empty
store of the configured dimension. -/
theorem c7_startup_fallback_witness :
    initStore 3 false true (some (save fixStore)) = emptyStore 3 := by
  exact (c7_startup_fallback 3 false true (some (save fixStore))
    (Or.inr (Or.inl rfl))).1

/-- C10: when the vector appended to the index has the wrong dimension, the
insert fails inside the critical section after next_id was incremented: no
id is returned, the vector collection, the position-to-id map, and the
metadata table are unchanged (so count consistency is preserved), next_id
has advanced by one, and the next successful insert returns the id
next_id + 1, skipping the value next_id consumed by the failed insert. -/
theorem c10_failed_insert_state (sqrtOracle : ℚ → ℚ) (s : Store)
    (v : List ℚ) (text role model : String) (ts : ℚ)
    (extra : List (String × String))
    (hdim : ¬ v.length = s.dim) :
    (store_message sqrtOracle s v text role model ts extra).2 = none
    ∧ ((store_message sqrtOracle s v text role model ts extra).1).vectors = s.vectors
    ∧ ((store_message sqrtOracle s v text role model ts extra).1).id_map = s.id_map
    ∧ ((store_message sqrtOracle s v text role model ts extra).1).metadata = s.metadata
    ∧ ((store_message sqrtOracle s v text role model ts extra).1).next_id = s.next_id + 1
    ∧ (countConsistent s →
        countConsistent ((store_message sqrtOracle s v text role model ts extra).1))
    ∧ (∀ (v2 : List ℚ) (t2 r2 m2 : String) (ts2 : ℚ)
        (e2 : List (String × String)), v2.length = s.dim →
        (store_message sqrtOracle
          ((store_message sqrtOracle s v text role model ts extra).1)
          v2 t2 r2 m2 ts2 e2).2 = some (s.next_id + 1)) := by
  have hfail := store_message_failure sqrtOracle s v text role model ts extra hdim
  rw [hfail]
  refine ⟨rfl, rfl, rfl, rfl, rfl, ?_, ?_⟩
  · intro hc
    exact hc
  · intro v2 t2 r2 m2 ts2 e2 hdim2
    have hsucc := store_message_success sqrtOracle
      ({ s with next_id := s.next_id + 1 }) v2 t2 r2 m2 ts2 e2 hdim2
    rw [hsucc]

unseal Rat.add Rat.mul Rat.sub Rat.inv in
/-- C10 witness: inserting a one-dimensional vector into the empty
two-dimensional store fails and returns no id, and the next successful
insert returns id 1, skipping id 0. -/
theorem c10_failed_insert_state_witness :
    (store_message fixSqrt (emptyStore 2) [1] "t" "user" "m" 0 []).2 = none
    ∧ (store_message fixSqrt
        ((store_message fixSqrt (emptyStore 2) [1] "t" "user" "m" 0 []).1)
        [3, 4] "u" "user" "m" 0 []).2 = some 1 := by
  have h := c10_failed_insert_state fixSqrt (emptyStore 2) [1] "t" "user" "m" 0 []
    (by decide)
  exact ⟨h.1, h.2.2.2.2.2.2 [3, 4] "u" "user" "m" 0 [] (by decide)⟩

theorem format_lines_go_length (now : ℚ) (mc : Nat) :
    ∀ (hits : List Hit) (total : Nat),
      (format_lines_go now mc hits total).length ≤ hits.length := by
  intro hits
  induction hits with
  | nil => intro total; simp [format_lines_go]
  | cons r rest ih =>
      intro total
      rw [format_lines_go]
      by_cases hb : mc ≤ total
      · rw [if_pos hb]
        simp
      · rw [if_neg hb]
        simpa using ih (total + (formatLine now r (mc - total)).length)

theorem format_lines_go_budget (now : ℚ) (mc : Nat) :
    ∀ (hits : List Hit) (total : Nat),
      format_lines_go now mc hits total ≠ [] →
      total + sumLens (format_lines_go now mc hits total).dropLast < mc := by
  intro hits
  induction hits with
  | nil => intro total h; simp [format_lines_go] at h
  | cons r rest ih =>
      intro total h
      by_cases hb : mc ≤ total
      · rw [format_lines_go, if_pos hb] at h
        exact absurd rfl h
      · rw [format_lines_go, if_neg hb]
        have htot : total < mc := Nat.lt_of_not_le hb
        cases ht : format_lines_go now mc rest
            (total + (formatLine now r (mc - total)).length) with
        | nil => simp [ht, sumLens, htot]
        | cons t ts =>
            have hih := ih (total + (formatLine now r (mc - total)).length)
              (by rw [ht]; exact List.cons_ne_nil t ts)
            rw [ht] at hih
            have hdrop : ((formatLine now r (mc - total)) :: t :: ts).dropLast
                = (formatLine now r (mc - total)) :: (t :: ts).dropLast := rfl
            rw [hdrop]
            simp only [sumLens]
            omega

unseal Rat.add Rat.mul Rat.sub Rat.inv in
/-- C1 counterexample: with a character budget of 5 and a single hit whose
stored text has 10 characters, the assembled context block has length far
above the budget (the truncation trims the text to the remaining budget but
the line also carries a role, age and relevance prefix plus the ellipsis,
and the block adds the base memory prompt and the header and footer), so the
block length is not bounded by max_context_chars. -/
theorem c1_counterexample :
    ¬ ((build_memory_block 0 [fixHit] fixCfg 1).length ≤ fixCfg.max_context_chars) := by
  decide

/-- C1 (amended): the assembler considers at most max_context_items hits, so
at most that many lines are produced; the running budget counts the full
length of each emitted line (prefix included), and a line is only added
while the running total is strictly below max_context_chars, so the combined
character length of all emitted lines except the last is strictly below
max_context_chars. The total block length itself may exceed
max_context_chars, as the counterexample shows. -/
theorem c1_amended_budget (now : ℚ) (results : List Hit) (config : ProxyConfig) :
    (format_memory_lines now results config).length ≤ config.max_context_items
    ∧ (format_memory_lines now results config ≠ [] →
        sumLens (format_memory_lines now results config).dropLast
          < config.max_context_chars) := by
  constructor
  · calc (format_memory_lines now results config).length
        ≤ (results.take config.max_context_items).length :=
          format_lines_go_length now config.max_context_chars _ 0
      _ ≤ config.max_context_items := List.length_take_le _ _
  · intro h
    have := format_lines_go_budget now config.max_context_chars
      (results.take config.max_context_items) 0 h
    simpa [format_memory_lines] using this

unseal Rat.add Rat.mul Rat.sub Rat.inv in
/-- C1 witness: on the concrete counterexample input the line list is
non-empty and the combined length of all lines but the last (here zero, the
single line being the last) is strictly below the budget. -/
theorem c1_amended_budget_witness :
    format_memory_lines 0 [fixHit] fixCfg ≠ []
    ∧ sumLens (format_memory_lines 0 [fixHit] fixCfg).dropLast
        < fixCfg.max_context_chars := by
  exact ⟨by decide, (c1_amended_budget 0 [fixHit] fixCfg).2 (by decide)⟩

theorem foldl_append_length (xs : List String) :
    ∀ acc : String, acc.length ≤ (xs.foldl (fun a b => a ++ b) acc).length := by
  induction xs with
  | nil => intro acc; exact Nat.le_refl _
  | cons x rest ih =>
      intro acc
      calc acc.length ≤ (acc ++ x).length := by
            rw [String.length_append]; omega
        _ ≤ (rest.foldl (fun a b => a ++ b) (acc ++ x)).length := ih (acc ++ x)

theorem joinStrings_cons_length (x : String) (xs : List String) :
    x.length ≤ (joinStrings (x :: xs)).length := by
  have h := foldl_append_length xs ("" ++ x)
  have hx : ("" ++ x).length = x.length := by
    rw [String.length_append]
    simp
  rw [hx] at h
  exact h

theorem joinStrings_ne_empty (x : String) (xs : List String)
    (hx : 0 < x.length) : joinStrings (x :: xs) ≠ "" := by
  intro heq
  have hlen := joinStrings_cons_length x xs
  rw [heq] at hlen
  have hempty : String.length "" = 0 := rfl
  omega

/-- C8: the assembled context block is the empty string when the store holds
zero records and the hit list is empty; whenever the store holds at least
one record the block is non-empty (it always begins with the base memory
prompt), regardless of whether any search hit survived. -/
theorem c8_block_presence (now : ℚ) (results : List Hit) (config : ProxyConfig)
    (total : Nat) :
    (total = 0 → results = [] → build_memory_block now results config total = "")
    ∧ (0 < total → build_memory_block now results config total ≠ "") := by
  constructor
  · intro h0 hr
    rw [h0, hr]
    simp [build_memory_block]
  · intro hpos
    have hguard : (total == 0 && results.isEmpty) = false := by
      have h0 : (total == 0) = false := by
        cases total with
        | zero => omega
        | succ n => rfl
      rw [h0]
      rfl
    rw [build_memory_block]
    rw [hguard]
    simp only [Bool.false_eq_true, if_false]
    exact joinStrings_ne_empty MEMORY_BASE_PROMPT _ (by decide)

/-- C8 witness: with one stored record and no surviving hit the block is
non-empty, and with an empty store and no hits the block is empty. -/
theorem c8_block_presence_witness :
    build_memory_block 0 [] fixCfg 1 ≠ ""
    ∧ build_memory_block 0 [] fixCfg 0 = "" := by
  exact ⟨(c8_block_presence 0 [] fixCfg 1).2 (by decide),
    (c8_block_presence 0 [] fixCfg 0).1 rfl rfl⟩

theorem get_append_left {α : Type} (l2 : List α) :
    ∀ (l1 : List α) (n : Nat), n < l1.length →
      (l1 ++ l2).get? n = l1.get? n := by
  intro l1
  induction l1 with
  | nil => intro n hn; simp at hn
  | cons x xs ih =>
      intro n hn
      cases n with
      | zero => rfl
      | succ n2 => exact ih n2 (by simpa using hn)

theorem get_set_of_ne {α : Type} (a : α) :
    ∀ (l : List α) (i j : Nat), i ≠ j → (l.set i a).get? j = l.get? j := by
  intro l
  induction l with
  | nil => intro i j hij; rfl
  | cons x xs ih =>
      intro i j hij
      cases i with
      | zero =>
          cases j with
          | zero => exact absurd rfl hij
          | succ j2 => rfl
      | succ i2 =>
          cases j with
          | zero => rfl
          | succ j2 => exact ih i2 j2 (fun hc => hij (by rw [hc]))

theorem copyMessages_fst :
    ∀ (rs : List Nat) (h : Heap), ∃ t, (copyMessages h rs).1 = h ++ t := by
  intro rs
  induction rs with
  | nil => intro h; exact ⟨[], by simp [copyMessages]⟩
  | cons r rest ih =>
      intro h
      obtain ⟨t, ht⟩ := ih (h ++ [(h.get? r).getD []])
      refine ⟨[(h.get? r).getD []] ++ t, ?_⟩
      simp only [copyMessages]
      rw [ht]
      simp [List.append_assoc]

theorem copyMessages_refs :
    ∀ (rs : List Nat) (h : Heap) (x : Nat),
      x ∈ (copyMessages h rs).2 → h.length ≤ x := by
  intro rs
  induction rs with
  | nil => intro h x hx; simp [copyMessages] at hx
  | cons r rest ih =>
      intro h x hx
      simp only [copyMessages] at hx
      rcases List.mem_cons.mp hx with he | hm
      · omega
      · have := ih (h ++ [(h.get? r).getD []]) x hm
        rw [List.length_append] at this
        simp only [List.length_singleton] at this
        omega

/-- C9: for every heap of message dicts, reference list and non-empty
context block, splicing operates on fresh copies: every reference of the
original message list still points to an unchanged dict in the resulting
heap (the original list and its dicts are not mutated), and every reference
in the returned list is a fresh allocation at or beyond the old heap end
(the returned list is a new list of copies, with the block appended to a
leading system copy or a new system message prepended). -/
theorem c9_inject_no_mutation (h : Heap) (messages : List Nat) (block : String)
    (hb : block ≠ "") :
    (∀ r ∈ messages, r < h.length →
      ((inject_context_into_messages h messages block).1).get? r = h.get? r)
    ∧ (∀ r2 ∈ (inject_context_into_messages h messages block).2,
        h.length ≤ r2) := by
  rw [inject_context_into_messages, if_neg hb]
  dsimp only
  obtain ⟨t, ht⟩ := copyMessages_fst messages h
  have hlen : h.length ≤ (copyMessages h messages).1.length := by
    rw [ht]
    simp
  have hrefs : ∀ x ∈ (copyMessages h messages).2, h.length ≤ x :=
    fun x hx => copyMessages_refs messages h x hx
  have hget : ∀ r, r < h.length →
      ((copyMessages h messages).1).get? r = h.get? r := by
    intro r hr
    rw [ht]
    exact get_append_left t h r hr
  cases hcs : (copyMessages h messages).2 with
  | nil =>
      constructor
      · intro r hrm hr
        simp only [injectCore]
        rw [get_append_left _ _ r (lt_of_lt_of_le hr hlen), hget r hr]
      · intro r2 hr2
        simp only [injectCore] at hr2
        have : r2 = (copyMessages h messages).1.length := List.mem_singleton.mp hr2
        omega
  | cons r0 rest =>
      have hr0 : h.length ≤ r0 :=
        hrefs r0 (by rw [hcs]; exact List.mem_cons_self r0 rest)
      constructor
      · intro r hrm hr
        simp only [injectCore]
        by_cases hsys :
            dictGet (((copyMessages h messages).1.get? r0).getD []) "role"
              = some "system"
        · rw [if_pos hsys]
          rw [get_set_of_ne _ _ r0 r (by omega), hget r hr]
        · rw [if_neg hsys]
          rw [get_append_left _ _ r (lt_of_lt_of_le hr hlen), hget r hr]
      · intro r2 hr2
        simp only [injectCore] at hr2
        by_cases hsys :
            dictGet (((copyMessages h messages).1.get? r0).getD []) "role"
              = some "system"
        · rw [if_pos hsys] at hr2
          exact hrefs r2 (by rw [hcs]; exact hr2)
        · rw [if_neg hsys] at hr2
          rcases List.mem_cons.mp hr2 with he | hm
          · omega
          · exact hrefs r2 (by rw [hcs]; exact hm)

/-- C9 witness: on a concrete one-dict heap and one-message list, after
injection the original reference still resolves to the original unchanged
dict. -/
theorem c9_inject_no_mutation_witness :
    ((inject_context_into_messages fixHeap [0] "B").1).get? 0 = fixHeap.get? 0 := by
  exact (c9_inject_no_mutation fixHeap [0] "B" (by decide)).1 0
    (by decide) (by decide)

theorem metaInsert_self (l : List (Nat × Meta)) (k : Nat) (v : Meta) :
    (k, v) ∈ metaInsert l k v := by
  induction l with
  | nil => exact List.mem_singleton.mpr rfl
  | cons p rest ih =>
      cases p with
      | mk k0 v0 =>
          simp only [metaInsert]
          by_cases hk : k0 = k
          · rw [if_pos hk]
            exact List.mem_cons_self _ _
          · rw [if_neg hk]
            exact List.mem_cons_of_mem _ ih

theorem metaInsert_mem_of_ne (k : Nat) (v : Meta) (k2 : Nat) (v2 : Meta)
    (hne : k ≠ k2) :
    ∀ l : List (Nat × Meta), (k, v) ∈ l → (k, v) ∈ metaInsert l k2 v2 := by
  intro l
  induction l with
  | nil => intro hmem; simp at hmem
  | cons p rest ih =>
      intro hmem
      cases p with
      | mk k0 v0 =>
          simp only [metaInsert]
          by_cases hk : k0 = k2
          · rw [if_pos hk]
            rcases List.mem_cons.mp hmem with he | hm
            · exfalso
              apply hne
              rw [hk] at he
              exact (Prod.mk.injEq _ _ _ _ ▸ he).1
            · exact List.mem_cons_of_mem _ hm
          · rw [if_neg hk]
            rcases List.mem_cons.mp hmem with he | hm
            · rw [he]
              exact List.mem_cons_self _ _
            · exact List.mem_cons_of_mem _ (ih hm)

theorem store_message_metadata_preserves (sqrtOracle : ℚ → ℚ) (s : Store)
    (v : List ℚ) (t r m : String) (ts : ℚ) (ex : List (String × String))
    (k : Nat) (mv : Meta) (hk : k ≠ s.next_id) (hmem : (k, mv) ∈ s.metadata) :
    (k, mv) ∈ ((store_message sqrtOracle s v t r m ts ex).1).metadata := by
  by_cases hdim : v.length = s.dim
  · rw [store_message_success sqrtOracle s v t r m ts ex hdim]
    exact metaInsert_mem_of_ne k mv s.next_id _ hk _ hmem
  · rw [store_message_failure sqrtOracle s v t r m ts ex hdim]
    exact hmem

unseal Rat.add Rat.mul Rat.sub Rat.inv in
/-- C2 counterexample: a completed request whose extracted user text is the
present, non-empty string Hi does not get that user text inserted: the
background write leaves the store unchanged, because the code also requires
the user text to be longer than 5 characters. -/
theorem c2_counterexample :
    (some "Hi" : Option String) ≠ none
    ∧ "Hi" ≠ ""
    ∧ store_conversation fixEmbed fixSqrt (emptyStore 1) (some "Hi") "" "m" 0
        = emptyStore 1 := by
  refine ⟨by decide, by decide, ?_⟩
  decide

/-- C2 (amended): the post-response background write embeds and inserts the
user text exactly when it is present, non-empty and longer than 5
characters (a minimal-length condition applies to the user text too, with
threshold 5 versus 20 for the assistant text; only the refusal-phrase
condition is specific to the assistant text). Under those conditions, and
with the embedding of the right dimension, the resulting store contains a
metadata record carrying the user text with role user under the id the
insert assigned. -/
theorem c2_amended_user_store (embed : String → List ℚ) (sqrtOracle : ℚ → ℚ)
    (s : Store) (u assistant_text model_name : String) (ts : ℚ)
    (hne : u ≠ "") (hlen : 5 < u.length)
    (hdim : (embed u).length = s.dim) :
    ∃ m : Meta,
      (s.next_id, m) ∈
        (store_conversation embed sqrtOracle s (some u) assistant_text
          model_name ts).metadata
      ∧ m.text = u ∧ m.role = "user" := by
  have hsucc := store_message_success sqrtOracle s (embed u) u "user"
    model_name ts [] hdim
  refine ⟨⟨u, "user", model_name, ts, []⟩, ?_, rfl, rfl⟩
  rw [store_conversation]
  have huser : u ≠ "" ∧ 5 < u.length := ⟨hne, hlen⟩
  have hmem1 : (s.next_id, (⟨u, "user", model_name, ts, []⟩ : Meta)) ∈
      ((store_message sqrtOracle s (embed u) u "user" model_name ts []).1).metadata := by
    rw [hsucc]
    exact metaInsert_self s.metadata s.next_id _
  have hnext1 :
      ((store_message sqrtOracle s (embed u) u "user" model_name ts []).1).next_id
        = s.next_id + 1 := by
    rw [hsucc]
  by_cases hass : assistant_text ≠ "" ∧ 20 < assistant_text.length ∧
      is_unhelpful assistant_text = false
  · rw [if_pos hass, if_pos huser]
    apply store_message_metadata_preserves
    · rw [hnext1]
      omega
    · exact hmem1
  · rw [if_neg hass, if_pos huser]
    exact hmem1

unseal Rat.add Rat.mul Rat.sub Rat.inv in
/-- C2 witness: a six-character user text with a matching one-dimensional
embedding is stored: the resulting store contains a metadata record with
that text and role user under id 0. -/
theorem c2_amended_user_store_witness :
    ∃ m : Meta,
      (0, m) ∈
        (store_conversation fixEmbed fixSqrt (emptyStore 1) (some "hello!")
          "" "m" 0).metadata
      ∧ m.text = "hello!" ∧ m.role = "user" := by
  exact c2_amended_user_store fixEmbed fixSqrt (emptyStore 1) "hello!" "" "m" 0
    (by decide) (by decide) (by decide)
